import Mathlib

/-!
# Verification of the bounded concurrent streaming orchestrator

Shallow embedding of the streaming request scripts
(`api_examples/ollama/07_async_stream_many.py`,
`06_async_stream_one.py`, `httpx_sdk_async_streaming.py`).

The per-task read loop (`stream_one` / the body of `main` in the
single-stream script) is embedded as a pure function over the sequence
of decoded records; the orchestrator (`asyncio.gather` over semaphore-
gated tasks) is embedded both as a result aggregator and as a small-step
interleaving system faithful to asyncio's cooperative scheduling, in
which each synchronous segment between `await` points is one atomic
step.
-/

namespace Llmeng

/-- One decoded NDJSON line, as the read loop sees it.
`empty` is a blank keep-alive line (`if not line: continue`);
`malformed` is a line `json.loads` rejects;
`obj response done` is a decoded JSON object, with the optional
`"response"` text field and the truthiness of `data.get("done")`. -/
inductive Record where
  | empty
  | malformed
  | obj (response : Option String) (done : Bool)
  deriving DecidableEq

/-- Observable output event of one task: a printed text fragment
(`print(data["response"], end="")`) or the completion of the stream on a
`done` record. -/
inductive Event where
  | fragment (t : String)
  | doneEv
  deriving DecidableEq

/-- How the task's coroutine terminates: a normal return, or a Python
exception escaping the coroutine (there is no try/except in the loop). -/
inductive Outcome where
  | success
  | exception
  deriving DecidableEq

/-- The read loop of `stream_one` (07) / `main` (06):
skip empty lines; `json.loads` on a malformed line raises and the
exception escapes; print the `"response"` field when present; `break`
when `data.get("done")` is truthy; when the record stream is exhausted
without a `done`, the `async for` loop simply ends and the coroutine
returns normally. Returns the emitted events and the termination
outcome. -/
def processRecords : List Record → List Event × Outcome
  | [] => ([], Outcome.success)
  | Record.empty :: rest => processRecords rest
  | Record.malformed :: _ => ([], Outcome.exception)
  | Record.obj resp dn :: rest =>
    let evs : List Event := match resp with
      | some t => [Event.fragment t]
      | none => []
    if dn then
      (evs ++ [Event.doneEv], Outcome.success)
    else
      let r := processRecords rest
      (evs ++ r.1, r.2)

/-- The environment's behaviour for one task: either the
`client.stream(...)` context entry raises (connect-phase failure), or
the stream is established and delivers the given records before the
connection closes. -/
inductive ConnectResult where
  | failure
  | established (records : List Record)
  deriving DecidableEq

/-- Observable summary of one run of `stream_one`:
whether the per-model header was printed, the events emitted, and how
the coroutine terminated.  In script 07 (and 06) the header `print` is
inside the `async with client.stream(...)` block, so it is sequenced
strictly after successful stream establishment. -/
structure TaskRun where
  headerWritten : Bool
  events : List Event
  outcome : Outcome
  deriving DecidableEq

/-- One full task: connect, then (on success) header plus the read
loop.  On connect failure the exception propagates out of `stream_one`
before any print. -/
def stream_one : ConnectResult → TaskRun
  | ConnectResult.failure => ⟨false, [], Outcome.exception⟩
  | ConnectResult.established rs =>
    let r := processRecords rs
    ⟨true, r.1, r.2⟩

/-- `asyncio.gather` with its default `return_exceptions=False`, on the
results of the already-determined coroutines: if any coroutine raises,
the exception propagates to the awaiter of `gather` and no result list
is produced; otherwise the list of all results is returned. -/
def gatherResults : List (Except Unit TaskRun) → Except Unit (List TaskRun)
  | [] => Except.ok []
  | Except.error e :: _ => Except.error e
  | Except.ok r :: rest =>
    match gatherResults rest with
    | Except.error e => Except.error e
    | Except.ok rs => Except.ok (r :: rs)

/-- The `main` of script 07 as an aggregator: run one `stream_one` per
target, collect through `asyncio.gather`; a task whose outcome is an
escaped exception makes `gather` raise. -/
def runMany (inputs : List ConnectResult) : Except Unit (List TaskRun) :=
  gatherResults (inputs.map fun c =>
    match (stream_one c).outcome with
    | Outcome.exception => Except.error ()
    | Outcome.success => Except.ok (stream_one c))

/-- A record the read loop passes over without terminating:
an empty keep-alive line or a decoded object without `done`. -/
def nonTerminal : Record → Bool
  | Record.empty => true
  | Record.obj _ false => true
  | _ => false

/-- The fragment events a list of non-terminal records produces. -/
def fragEvents (rs : List Record) : List Event :=
  rs.filterMap fun r =>
    match r with
    | Record.obj (some t) _ => some (Event.fragment t)
    | _ => none

/-! ## Incremental Line Decoder

Modelled from the spec: the scripts delegate line splitting to
`httpx.Response.aiter_lines`, whose implementation is not part of this
repository; the spec describes it as retaining an unterminated tail
buffer across calls, appending each new chunk, yielding every complete
delimiter-terminated segment as a Record and keeping the remaining
suffix for the next chunk. -/

/-- Split a byte (character) sequence into its complete
newline-terminated segments and its unterminated trailing suffix. -/
def splitLines : List Char → List (List Char) × List Char
  | [] => ([], [])
  | c :: rest =>
    let p := splitLines rest
    if c = '\n' then
      ([] :: p.1, p.2)
    else
      match p.1 with
      | [] => ([], c :: p.2)
      | r :: rs => ((c :: r) :: rs, p.2)

/-- Modelled from the spec: decoder state, the retained unterminated
tail buffer. -/
structure DecoderState where
  buf : List Char
  deriving DecidableEq

/-- Feed one raw chunk: append to the tail buffer, emit the complete
segments, retain the unterminated suffix. -/
def decoderFeed (s : DecoderState) (chunk : List Char) :
    List (List Char) × DecoderState :=
  let p := splitLines (s.buf ++ chunk)
  (p.1, ⟨p.2⟩)

/-- Feed a sequence of chunks, accumulating the emitted Records. -/
def decoderFeedAll (s : DecoderState) :
    List (List Char) → List (List Char) × DecoderState
  | [] => ([], s)
  | c :: cs =>
    let p := decoderFeed s c
    let q := decoderFeedAll p.2 cs
    (p.1 ++ q.1, q.2)

/-- Decode a whole chunked stream: feed every chunk from an empty
buffer, then flush — on stream end a non-empty leftover tail is yielded
as a final Record (the behaviour of `aiter_lines`). -/
def decodeChunks (cs : List (List Char)) : List (List Char) :=
  let p := decoderFeedAll ⟨[]⟩ cs
  p.1 ++ (if p.2.buf = [] then [] else [p.2.buf])

/-! ## The orchestrator as an interleaving system

`main` of script 07: one semaphore-gated task (`wrapped`) per model,
run concurrently by `asyncio.gather`.  asyncio schedules cooperatively:
a task can only be preempted at an `await` point, so every synchronous
segment — in particular every single `print` call — executes atomically.
Each constructor of `Act` below is one such segment of one task; a
schedule is an arbitrary list of such steps, with steps whose guard is
not enabled acting as no-ops. -/

/-- Local state of one task (the program counter of `wrapped`):
not yet started; holding a permit and awaiting `client.stream`
establishment; established but header not yet printed; streaming with
the already-consumed records `pre` and the unread records `rs`;
terminated.  A terminated task records what it had streamed
(`none` when the stream was never established, otherwise the consumed
prefix and the response text of the terminal record, if any) so the
output it produced is a function of its phase. -/
inductive Phase where
  | pending
  | connecting
  | connected (rs : List Record)
  | streaming (pre rs : List Record)
  | terminated (streamed : Option (List Record × Option String)) (ok : Bool)
  deriving DecidableEq

/-- One atomic scheduler step of task `i`:
`start` = `async with sem` acquires the semaphore; `connect` = the
`client.stream(...)` entry resolves (success or exception); `header` =
the header `print`; `read` = one iteration of the `async for` loop
(or its exhaustion); `cancel` = an external cancellation reaches the
task (`asyncio.run` shutdown), unwinding its `async with` blocks. -/
inductive Act where
  | start (i : Nat)
  | connect (i : Nat)
  | header (i : Nat)
  | read (i : Nat)
  | cancel (i : Nat)
  deriving DecidableEq

/-- Global state: the tasks' phases, the semaphore's free-permit
counter, the Output Sink's contents as the ordered list of atomic
writes (each tagged with the task that performed it — the terminal
shows their concatenation), and the per-task logs of semaphore acquire
and release events. -/
structure SysState where
  phases : List Phase
  sem : Nat
  trace : List (Nat × String)
  acqLog : List Nat
  relLog : List Nat
  deriving DecidableEq

/-- The target list of a run: each target's model name and the
behaviour of its connection attempt. -/
def inputOf (targets : List (String × ConnectResult)) (i : Nat) : ConnectResult :=
  (targets.getD i ("", ConnectResult.failure)).2

def modelOf (targets : List (String × ConnectResult)) (i : Nat) : String :=
  (targets.getD i ("", ConnectResult.failure)).1

/-- The header line printed for one model inside the established
stream: `print(f"\n=== {model} (streaming) ===\n")`. -/
def headerOf (model : String) : String :=
  "\n=== " ++ model ++ " (streaming) ===\n"

/-- The text an optional response field contributes to the sink. -/
def optText : Option String → List String
  | some t => [t]
  | none => []

/-- The sink entry an optional response field contributes, tagged with
the writing task. -/
def optEntry (i : Nat) : Option String → List (Nat × String)
  | some t => [(i, t)]
  | none => []

/-- All tasks pending, all `k` permits free, empty sink and logs. -/
def initState (k m : Nat) : SysState :=
  ⟨List.replicate m Phase.pending, k, [], [], []⟩

/-- One step of the interleaving semantics.  A step whose guard is not
enabled (wrong phase, no free permit, index out of range) leaves the
state unchanged, so every `Act` list is a valid schedule. -/
def stepFn (targets : List (String × ConnectResult)) (σ : SysState)
    (a : Act) : SysState :=
  match a with
  | Act.start i =>
    match σ.phases.getD i Phase.pending with
    | Phase.pending =>
      if 0 < σ.sem ∧ i < σ.phases.length then
        { σ with phases := σ.phases.set i Phase.connecting,
                 sem := σ.sem - 1,
                 acqLog := σ.acqLog ++ [i] }
      else σ
    | _ => σ
  | Act.connect i =>
    match σ.phases.getD i Phase.pending with
    | Phase.connecting =>
      match inputOf targets i with
      | ConnectResult.failure =>
        { σ with phases := σ.phases.set i (Phase.terminated none false),
                 sem := σ.sem + 1,
                 relLog := σ.relLog ++ [i] }
      | ConnectResult.established rs =>
        { σ with phases := σ.phases.set i (Phase.connected rs) }
    | _ => σ
  | Act.header i =>
    match σ.phases.getD i Phase.pending with
    | Phase.connected rs =>
      { σ with phases := σ.phases.set i (Phase.streaming [] rs),
               trace := σ.trace ++ [(i, headerOf (modelOf targets i))] }
    | _ => σ
  | Act.read i =>
    match σ.phases.getD i Phase.pending with
    | Phase.streaming pre rs =>
      match rs with
      | [] =>
        { σ with phases := σ.phases.set i
                   (Phase.terminated (some (pre, none)) true),
                 sem := σ.sem + 1,
                 relLog := σ.relLog ++ [i] }
      | Record.empty :: rest =>
        { σ with phases := σ.phases.set i
                   (Phase.streaming (pre ++ [Record.empty]) rest) }
      | Record.malformed :: _ =>
        { σ with phases := σ.phases.set i
                   (Phase.terminated (some (pre, none)) false),
                 sem := σ.sem + 1,
                 relLog := σ.relLog ++ [i] }
      | Record.obj resp dn :: rest =>
        let tr := σ.trace ++ optEntry i resp
        if dn then
          { σ with phases := σ.phases.set i
                     (Phase.terminated (some (pre, resp)) true),
                   sem := σ.sem + 1,
                   trace := tr,
                   relLog := σ.relLog ++ [i] }
        else
          { σ with phases := σ.phases.set i
                     (Phase.streaming (pre ++ [Record.obj resp dn]) rest),
                   trace := tr }
    | _ => σ
  | Act.cancel i =>
    match σ.phases.getD i Phase.pending with
    | Phase.pending =>
      if i < σ.phases.length then
        { σ with phases := σ.phases.set i (Phase.terminated none false) }
      else σ
    | Phase.connecting =>
      { σ with phases := σ.phases.set i (Phase.terminated none false),
               sem := σ.sem + 1,
               relLog := σ.relLog ++ [i] }
    | Phase.connected _ =>
      { σ with phases := σ.phases.set i (Phase.terminated none false),
               sem := σ.sem + 1,
               relLog := σ.relLog ++ [i] }
    | Phase.streaming pre _ =>
      { σ with phases := σ.phases.set i
                 (Phase.terminated (some (pre, none)) false),
               sem := σ.sem + 1,
               relLog := σ.relLog ++ [i] }
    | Phase.terminated _ _ => σ

/-- Run a whole schedule from the initial state. -/
def exec (k : Nat) (targets : List (String × ConnectResult))
    (sched : List Act) : SysState :=
  sched.foldl (stepFn targets) (initState k targets.length)

/-- A task in this phase holds a permit. -/
def isHolding : Phase → Bool
  | Phase.connecting => true
  | Phase.connected _ => true
  | Phase.streaming _ _ => true
  | _ => false

/-- A task in this phase holds an open stream. -/
def isOpen : Phase → Bool
  | Phase.connected _ => true
  | Phase.streaming _ _ => true
  | _ => false

/-- A task in this phase has successfully established its stream at
some point (so its connection attempt did not fail). -/
def everConnected : Phase → Bool
  | Phase.connected _ => true
  | Phase.streaming _ _ => true
  | Phase.terminated (some _) _ => true
  | _ => false

def isTerminated : Phase → Bool
  | Phase.terminated _ _ => true
  | _ => false

/-- Number of permits currently held. -/
def heldCount (σ : SysState) : Nat :=
  σ.phases.countP isHolding

/-- Number of tasks currently holding an open stream. -/
def openCount (σ : SysState) : Nat :=
  σ.phases.countP isOpen

/-- The sink writes performed by task `i`, in order. -/
def writesOf (i : Nat) (tr : List (Nat × String)) : List String :=
  (tr.filter fun p => p.1 == i).map Prod.snd

/-- The fragment texts of the consumed records, in arrival order. -/
def fragTexts (pre : List Record) : List String :=
  pre.filterMap fun r =>
    match r with
    | Record.obj (some t) _ => some t
    | _ => none


/-- The complete writes a task in a given phase has performed:
nothing before the header; afterwards the header followed by the
fragments of the consumed records in arrival order, plus the terminal
record's own fragment if it carried one. -/
def expectedWrites (model : String) : Phase → List String
  | Phase.pending => []
  | Phase.connecting => []
  | Phase.connected _ => []
  | Phase.streaming pre _ => headerOf model :: fragTexts pre
  | Phase.terminated none _ => []
  | Phase.terminated (some (pre, last)) _ =>
    headerOf model :: (fragTexts pre ++ optText last)

/-- Allowed acquire/release event counts of one task per phase. -/
def logOK : Phase → Nat → Nat → Prop
  | Phase.pending, a, r => a = 0 ∧ r = 0
  | Phase.connecting, a, r => a = 1 ∧ r = 0
  | Phase.connected _, a, r => a = 1 ∧ r = 0
  | Phase.streaming _ _, a, r => a = 1 ∧ r = 0
  | Phase.terminated _ _, a, r => a = r ∧ a ≤ 1

/-- The run invariant: fixed task count; the free permits and the held
permits always sum to `k`; a task past `connecting` has an
`established` input; the sink writes of each task are exactly the
writes its phase accounts for; every sink write belongs to a real
task; the semaphore logs match the phases. -/
structure Inv (k : Nat) (targets : List (String × ConnectResult))
    (σ : SysState) : Prop where
  len : σ.phases.length = targets.length
  semInv : σ.sem + heldCount σ = k
  conn : ∀ i, (h : i < σ.phases.length) →
    everConnected σ.phases[i] = true →
    ∃ rs, inputOf targets i = ConnectResult.established rs
  writes : ∀ i, (h : i < σ.phases.length) →
    writesOf i σ.trace = expectedWrites (modelOf targets i) σ.phases[i]
  traceDom : ∀ p ∈ σ.trace, p.1 < targets.length
  logs : ∀ i, logOK (σ.phases.getD i Phase.pending)
    (σ.acqLog.count i) (σ.relLog.count i)

/-! ### List bookkeeping helpers -/

theorem countP_set_eq {α : Type} (p : α → Bool) (l : List α) (i : Nat)
    (x : α) (h : i < l.length) :
    (l.set i x).countP p + (if p l[i] then 1 else 0)
      = l.countP p + (if p x then 1 else 0) := by
  induction l generalizing i with
  | nil => simp at h
  | cons y l ih =>
    cases i with
    | zero =>
      simp only [List.set_cons_zero, List.countP_cons, List.getElem_cons_zero]
      omega
    | succ n =>
      have hn : n < l.length := by simpa using h
      have := ih n hn
      simp only [List.set_cons_succ, List.countP_cons, List.getElem_cons_succ]
      omega

theorem getD_set_same {α : Type} (l : List α) (i : Nat) (x d : α)
    (h : i < l.length) : (l.set i x).getD i d = x := by
  rw [List.getD_eq_getElem _ _ (by simpa using h)]
  exact List.getElem_set_self _

theorem getD_set_other {α : Type} (l : List α) (i j : Nat) (x d : α)
    (hne : i ≠ j) : (l.set i x).getD j d = l.getD j d := by
  by_cases hj : j < l.length
  · rw [List.getD_eq_getElem _ _ (by simpa using hj),
      List.getD_eq_getElem _ _ hj]
    exact List.getElem_set_ne hne _
  · have hj' : l.length ≤ j := Nat.le_of_not_lt hj
    rw [List.getD_eq_getElem?_getD, List.getElem?_eq_none (by simpa using hj'),
      List.getD_eq_getElem?_getD, List.getElem?_eq_none hj']

theorem getD_lt_length (l : List Phase) (i : Nat)
    (h : l.getD i Phase.pending ≠ Phase.pending) : i < l.length := by
  by_contra hn
  rw [List.getD_eq_getElem?_getD,
    List.getElem?_eq_none (Nat.le_of_not_lt hn)] at h
  exact h rfl

theorem writesOf_snoc (j i : Nat) (tr : List (Nat × String)) (t : String) :
    writesOf j (tr ++ [(i, t)])
      = writesOf j tr ++ (if i = j then [t] else []) := by
  by_cases h : i = j
  · subst h; simp [writesOf, List.filter_append]
  · simp [writesOf, List.filter_append, h]

theorem count_snoc (j i : Nat) (l : List Nat) :
    (l ++ [i]).count j = l.count j + (if i = j then 1 else 0) := by
  rw [List.count_append]
  simp [List.count_singleton', eq_comm]

theorem fragTexts_snoc (pre : List Record) (r : Record) :
    fragTexts (pre ++ [r])
      = fragTexts pre ++ (match r with
        | Record.obj (some t) _ => [t]
        | _ => []) := by
  cases r with
  | empty => simp [fragTexts]
  | malformed => simp [fragTexts]
  | obj resp dn => cases resp <;> simp [fragTexts]

/-- Every enabled transition has the same shape: task `i` moves to a
new phase, the semaphore counter moves accordingly, at most one sink
write `(i, t)` is appended, and the acquire/release logs may each gain
one entry for `i`.  This lemma re-establishes the invariant for that
shape from local facts about the transition. -/
theorem Inv.update {k : Nat} {targets : List (String × ConnectResult)}
    {σ : SysState} (inv : Inv k targets σ) (i : Nat)
    (hi : i < σ.phases.length)
    (ph' : Phase) (s' : Nat) (w : Option String) (na nr : Bool)
    (hsem : s' + (if isHolding ph' then 1 else 0)
          = σ.sem + (if isHolding σ.phases[i] then 1 else 0))
    (hconn : everConnected ph' = true →
      ∃ rs, inputOf targets i = ConnectResult.established rs)
    (hwr : expectedWrites (modelOf targets i) ph'
      = expectedWrites (modelOf targets i) σ.phases[i] ++ optText w)
    (hlog : logOK ph' (σ.acqLog.count i + (if na then 1 else 0))
      (σ.relLog.count i + (if nr then 1 else 0))) :
    Inv k targets
      { phases := σ.phases.set i ph', sem := s',
        trace := σ.trace ++ optEntry i w,
        acqLog := σ.acqLog ++ (if na then [i] else []),
        relLog := σ.relLog ++ (if nr then [i] else []) } := by
  obtain ⟨len, semInv, conn, writes, traceDom, logs⟩ := inv
  refine ⟨by simpa using len, ?_, ?_, ?_, ?_, ?_⟩
  · have hc := countP_set_eq isHolding σ.phases i ph' hi
    unfold heldCount at semInv ⊢
    simp only at semInv hc ⊢
    by_cases h1 : isHolding ph' <;> by_cases h2 : isHolding σ.phases[i] <;>
      simp [h1, h2] at hc hsem <;> omega
  · intro j hj hcj
    by_cases hij : j = i
    · subst hij
      rw [List.getElem_set_self _] at hcj
      exact hconn hcj
    · have hj' : j < σ.phases.length := by simpa using hj
      rw [List.getElem_set_ne (Ne.symm hij) _] at hcj
      exact conn j hj' hcj
  · intro j hj
    have hj' : j < σ.phases.length := by simpa using hj
    by_cases hij : j = i
    · subst hij
      simp only [List.getElem_set_self _]
      cases w with
      | none =>
        simp only [optEntry, List.append_nil]
        rw [writes j hj']
        simpa [optText] using hwr.symm
      | some t =>
        simp only [optEntry]
        rw [writesOf_snoc j j σ.trace t, if_pos rfl, writes j hj']
        simpa [optText] using hwr.symm
    · simp only [List.getElem_set_ne (Ne.symm hij) _]
      cases w with
      | none => simpa [optEntry] using writes j hj'
      | some t =>
        simp only [optEntry]
        rw [writesOf_snoc j i σ.trace t, if_neg (fun h => hij h.symm)]
        simpa using writes j hj'
  · intro p hp
    simp only [List.mem_append] at hp
    rcases hp with hp | hp
    · exact traceDom p hp
    · cases w with
      | none => simp [optEntry] at hp
      | some t =>
        simp only [optEntry, List.mem_singleton] at hp
        subst hp
        simpa using len ▸ hi
  · intro j
    by_cases hij : j = i
    · subst hij
      rw [getD_set_same _ _ _ _ hi]
      have hA : (σ.acqLog ++ (if na then [j] else [])).count j
          = σ.acqLog.count j + (if na then 1 else 0) := by
        cases na <;> simp [count_snoc]
      have hR : (σ.relLog ++ (if nr then [j] else [])).count j
          = σ.relLog.count j + (if nr then 1 else 0) := by
        cases nr <;> simp [count_snoc]
      rw [hA, hR]
      exact hlog
    · rw [getD_set_other _ _ _ _ _ (Ne.symm hij)]
      have hne : ¬ (i = j) := fun h => hij h.symm
      have hA : (σ.acqLog ++ (if na then [i] else [])).count j
          = σ.acqLog.count j := by
        cases na <;> simp [List.count_append, List.count_singleton', hne]
      have hR : (σ.relLog ++ (if nr then [i] else [])).count j
          = σ.relLog.count j := by
        cases nr <;> simp [List.count_append, List.count_singleton', hne]
      rw [hA, hR]
      exact logs j

/-- Every scheduler step preserves the run invariant. -/
theorem inv_step (k : Nat) (targets : List (String × ConnectResult))
    (σ : SysState) (a : Act) (inv : Inv k targets σ) :
    Inv k targets (stepFn targets σ a) := by
  cases a with
  | start i =>
    cases hph : σ.phases.getD i Phase.pending with
    | pending =>
      simp only [stepFn, hph]
      split
      · next h =>
        obtain ⟨hs, hi⟩ := h
        have hie : σ.phases[i] = Phase.pending := by
          rw [← List.getD_eq_getElem σ.phases Phase.pending hi]; exact hph
        have hlog := inv.logs i
        rw [hph] at hlog
        have hupd := inv.update i hi Phase.connecting (σ.sem - 1) none true false
          (by rw [hie]; simp [isHolding]; omega)
          (by intro h; simp [everConnected] at h)
          (by rw [hie]; simp [expectedWrites, optText])
          (by simp [logOK] at hlog ⊢; omega)
        simpa [optEntry] using hupd
      · exact inv
    | connecting => simpa only [stepFn, hph] using inv
    | connected rs => simpa only [stepFn, hph] using inv
    | streaming pre rs => simpa only [stepFn, hph] using inv
    | terminated info ok => simpa only [stepFn, hph] using inv
  | connect i =>
    cases hph : σ.phases.getD i Phase.pending with
    | connecting =>
      have hi : i < σ.phases.length :=
        getD_lt_length σ.phases i (by rw [hph]; simp)
      have hie : σ.phases[i] = Phase.connecting := by
        rw [← List.getD_eq_getElem σ.phases Phase.pending hi]; exact hph
      have hlog := inv.logs i
      rw [hph] at hlog
      cases hin : inputOf targets i with
      | failure =>
        simp only [stepFn, hph, hin]
        have hupd := inv.update i hi (Phase.terminated none false)
          (σ.sem + 1) none false true
          (by rw [hie]; simp [isHolding])
          (by intro h; simp [everConnected] at h)
          (by rw [hie]; simp [expectedWrites, optText])
          (by simp [logOK] at hlog ⊢; omega)
        simpa [optEntry] using hupd
      | established rs =>
        simp only [stepFn, hph, hin]
        have hupd := inv.update i hi (Phase.connected rs)
          σ.sem none false false
          (by rw [hie]; simp [isHolding])
          (fun _ => ⟨rs, hin⟩)
          (by rw [hie]; simp [expectedWrites, optText])
          (by simp [logOK] at hlog ⊢; omega)
        simpa [optEntry] using hupd
    | pending => simpa only [stepFn, hph] using inv
    | connected rs => simpa only [stepFn, hph] using inv
    | streaming pre rs => simpa only [stepFn, hph] using inv
    | terminated info ok => simpa only [stepFn, hph] using inv
  | header i =>
    cases hph : σ.phases.getD i Phase.pending with
    | connected rs =>
      have hi : i < σ.phases.length :=
        getD_lt_length σ.phases i (by rw [hph]; simp)
      have hie : σ.phases[i] = Phase.connected rs := by
        rw [← List.getD_eq_getElem σ.phases Phase.pending hi]; exact hph
      have hlog := inv.logs i
      rw [hph] at hlog
      simp only [stepFn, hph]
      have hupd := inv.update i hi (Phase.streaming [] rs)
        σ.sem (some (headerOf (modelOf targets i))) false false
        (by rw [hie]; simp [isHolding])
        (fun _ => inv.conn i hi (by rw [hie]; simp [everConnected]))
        (by rw [hie]; simp [expectedWrites, fragTexts, optText])
        (by simp [logOK] at hlog ⊢; omega)
      simpa [optEntry] using hupd
    | pending => simpa only [stepFn, hph] using inv
    | connecting => simpa only [stepFn, hph] using inv
    | streaming pre rs => simpa only [stepFn, hph] using inv
    | terminated info ok => simpa only [stepFn, hph] using inv
  | read i =>
    cases hph : σ.phases.getD i Phase.pending with
    | streaming pre rs =>
      have hi : i < σ.phases.length :=
        getD_lt_length σ.phases i (by rw [hph]; simp)
      have hie : σ.phases[i] = Phase.streaming pre rs := by
        rw [← List.getD_eq_getElem σ.phases Phase.pending hi]; exact hph
      have hlog := inv.logs i
      rw [hph] at hlog
      have hcn : ∃ rs0, inputOf targets i = ConnectResult.established rs0 :=
        inv.conn i hi (by rw [hie]; simp [everConnected])
      cases rs with
      | nil =>
        simp only [stepFn, hph]
        have hupd := inv.update i hi
          (Phase.terminated (some (pre, none)) true) (σ.sem + 1) none false true
          (by rw [hie]; simp [isHolding])
          (fun _ => hcn)
          (by rw [hie]; simp [expectedWrites, optText])
          (by simp [logOK] at hlog ⊢; omega)
        simpa [optEntry] using hupd
      | cons r rest =>
        cases r with
        | empty =>
          simp only [stepFn, hph]
          have hupd := inv.update i hi
            (Phase.streaming (pre ++ [Record.empty]) rest) σ.sem none false false
            (by rw [hie]; simp [isHolding])
            (fun _ => hcn)
            (by rw [hie]; simp [expectedWrites, fragTexts_snoc, optText])
            (by simp [logOK] at hlog ⊢; omega)
          simpa [optEntry] using hupd
        | malformed =>
          simp only [stepFn, hph]
          have hupd := inv.update i hi
            (Phase.terminated (some (pre, none)) false) (σ.sem + 1) none false true
            (by rw [hie]; simp [isHolding])
            (fun _ => hcn)
            (by rw [hie]; simp [expectedWrites, optText])
            (by simp [logOK] at hlog ⊢; omega)
          simpa [optEntry] using hupd
        | obj resp dn =>
          cases dn with
          | true =>
            simp only [stepFn, hph]
            have hupd := inv.update i hi
              (Phase.terminated (some (pre, resp)) true) (σ.sem + 1)
              resp false true
              (by rw [hie]; simp [isHolding])
              (fun _ => hcn)
              (by rw [hie]; cases resp <;> simp [expectedWrites, optText])
              (by simp [logOK] at hlog ⊢; omega)
            simpa [optEntry] using hupd
          | false =>
            simp only [stepFn, hph]
            have hupd := inv.update i hi
              (Phase.streaming (pre ++ [Record.obj resp false]) rest) σ.sem
              resp false false
              (by rw [hie]; simp [isHolding])
              (fun _ => hcn)
              (by rw [hie]; cases resp <;> simp [expectedWrites, fragTexts_snoc, optText])
              (by simp [logOK] at hlog ⊢; omega)
            simpa [optEntry] using hupd
    | pending => simpa only [stepFn, hph] using inv
    | connecting => simpa only [stepFn, hph] using inv
    | connected rs => simpa only [stepFn, hph] using inv
    | terminated info ok => simpa only [stepFn, hph] using inv
  | cancel i =>
    cases hph : σ.phases.getD i Phase.pending with
    | pending =>
      simp only [stepFn, hph]
      split
      · next hi =>
        have hie : σ.phases[i] = Phase.pending := by
          rw [← List.getD_eq_getElem σ.phases Phase.pending hi]; exact hph
        have hlog := inv.logs i
        rw [hph] at hlog
        have hupd := inv.update i hi (Phase.terminated none false)
          σ.sem none false false
          (by rw [hie]; simp [isHolding])
          (by intro h; simp [everConnected] at h)
          (by rw [hie]; simp [expectedWrites, optText])
          (by simp [logOK] at hlog ⊢; omega)
        simpa [optEntry] using hupd
      · exact inv
    | connecting =>
      have hi : i < σ.phases.length :=
        getD_lt_length σ.phases i (by rw [hph]; simp)
      have hie : σ.phases[i] = Phase.connecting := by
        rw [← List.getD_eq_getElem σ.phases Phase.pending hi]; exact hph
      have hlog := inv.logs i
      rw [hph] at hlog
      simp only [stepFn, hph]
      have hupd := inv.update i hi (Phase.terminated none false)
        (σ.sem + 1) none false true
        (by rw [hie]; simp [isHolding])
        (by intro h; simp [everConnected] at h)
        (by rw [hie]; simp [expectedWrites, optText])
        (by simp [logOK] at hlog ⊢; omega)
      simpa [optEntry] using hupd
    | connected rs =>
      have hi : i < σ.phases.length :=
        getD_lt_length σ.phases i (by rw [hph]; simp)
      have hie : σ.phases[i] = Phase.connected rs := by
        rw [← List.getD_eq_getElem σ.phases Phase.pending hi]; exact hph
      have hlog := inv.logs i
      rw [hph] at hlog
      simp only [stepFn, hph]
      have hupd := inv.update i hi (Phase.terminated none false)
        (σ.sem + 1) none false true
        (by rw [hie]; simp [isHolding])
        (by intro h; simp [everConnected] at h)
        (by rw [hie]; simp [expectedWrites, optText])
        (by simp [logOK] at hlog ⊢; omega)
      simpa [optEntry] using hupd
    | streaming pre rs =>
      have hi : i < σ.phases.length :=
        getD_lt_length σ.phases i (by rw [hph]; simp)
      have hie : σ.phases[i] = Phase.streaming pre rs := by
        rw [← List.getD_eq_getElem σ.phases Phase.pending hi]; exact hph
      have hlog := inv.logs i
      rw [hph] at hlog
      have hcn : ∃ rs0, inputOf targets i = ConnectResult.established rs0 :=
        inv.conn i hi (by rw [hie]; simp [everConnected])
      simp only [stepFn, hph]
      have hupd := inv.update i hi
        (Phase.terminated (some (pre, none)) false) (σ.sem + 1) none false true
        (by rw [hie]; simp [isHolding])
        (fun _ => hcn)
        (by rw [hie]; simp [expectedWrites, optText])
        (by simp [logOK] at hlog ⊢; omega)
      simpa [optEntry] using hupd
    | terminated info ok => simpa only [stepFn, hph] using inv

/-- The invariant holds in the initial state. -/
theorem inv_init (k m : Nat) (targets : List (String × ConnectResult))
    (hm : m = targets.length) : Inv k targets (initState k m) := by
  refine ⟨by simp [initState, hm], ?_, ?_, ?_, ?_, ?_⟩
  · have hz : (List.replicate m Phase.pending).countP isHolding = 0 := by
      apply List.countP_eq_zero.mpr
      intro a ha
      rw [List.eq_of_mem_replicate ha]
      simp [isHolding]
    simp [initState, heldCount, hz]
  · intro i h hc
    simp only [initState] at hc
    rw [List.getElem_replicate] at hc
    simp [everConnected] at hc
  · intro i h
    simp only [initState, writesOf, List.filter_nil, List.map_nil]
    rw [List.getElem_replicate]
    simp [expectedWrites]
  · intro p hp
    simp [initState] at hp
  · intro i
    have hD : (List.replicate m Phase.pending).getD i Phase.pending
        = Phase.pending := by
      by_cases h : i < m
      · rw [List.getD_eq_getElem _ _ (by simpa using h)]
        rw [List.getElem_replicate]
      · rw [List.getD_eq_getElem?_getD,
          List.getElem?_eq_none (by simpa using Nat.le_of_not_lt h)]
        simp
    simp only [initState]
    rw [hD]
    simp [logOK]

theorem splitLines_append (a b : List Char) :
    splitLines (a ++ b) =
      ((splitLines a).1 ++ (splitLines ((splitLines a).2 ++ b)).1,
       (splitLines ((splitLines a).2 ++ b)).2) := by
  induction a with
  | nil => simp [splitLines]
  | cons c a ih =>
    by_cases hc : c = '\n'
    · subst hc
      simp [splitLines, ih]
    · cases hrec : (splitLines a).1 with
      | nil =>
        have : splitLines (c :: a) = ([], c :: (splitLines a).2) := by
          simp [splitLines, hc, hrec]
        rw [List.cons_append]
        simp only [splitLines, hc, if_false, ih, hrec, this]
        simp [splitLines, hc]
      | cons r rs =>
        have h1 : splitLines (c :: a) = ((c :: r) :: rs, (splitLines a).2) := by
          simp [splitLines, hc, hrec]
        rw [List.cons_append]
        simp only [splitLines, hc, if_false, ih, hrec, h1]
        simp

theorem splitLines_snd_no_newline (x : List Char) :
    '\n' ∉ (splitLines x).2 := by
  induction x with
  | nil => simp [splitLines]
  | cons c rest ih =>
    by_cases hc : c = '\n'
    · subst hc; simpa [splitLines] using ih
    · cases hrec : (splitLines rest).1 with
      | nil =>
        simp only [splitLines, hc, if_false, hrec]
        simp only [List.mem_cons, not_or]
        exact ⟨fun h => hc h.symm, ih⟩
      | cons r rs => simpa [splitLines, hc, hrec] using ih

theorem splitLines_no_newline (buf : List Char) (h : '\n' ∉ buf) :
    splitLines buf = ([], buf) := by
  induction buf with
  | nil => rfl
  | cons c rest ih =>
    have hc : ¬ c = '\n' := fun hh => h (by simp [hh])
    have hrest : '\n' ∉ rest := fun hh => h (by simp [hh])
    simp [splitLines, hc, ih hrest]

theorem decoderFeedAll_eq (buf : List Char) (cs : List (List Char))
    (hbuf : '\n' ∉ buf) :
    decoderFeedAll ⟨buf⟩ cs =
      ((splitLines (buf ++ cs.flatten)).1,
       ⟨(splitLines (buf ++ cs.flatten)).2⟩) := by
  induction cs generalizing buf with
  | nil =>
    simp [decoderFeedAll, splitLines_no_newline buf hbuf]
  | cons c cs ih =>
    simp only [decoderFeedAll, decoderFeed, List.flatten_cons,
      ← List.append_assoc]
    rw [ih (splitLines (buf ++ c)).2 (splitLines_snd_no_newline _)]
    rw [splitLines_append (buf ++ c) (cs.flatten)]

/-- Decoder output depends only on the concatenated bytes, not on the
chunk boundaries. -/
theorem decodeChunks_flatten (cs : List (List Char)) :
    decodeChunks cs =
      (splitLines cs.flatten).1 ++
        (if (splitLines cs.flatten).2 = [] then []
         else [(splitLines cs.flatten).2]) := by
  simp [decodeChunks, decoderFeedAll_eq [] cs (by simp)]

theorem processRecords_nonTerminal (rs : List Record)
    (h : ∀ r ∈ rs, nonTerminal r = true) :
    processRecords rs = (fragEvents rs, Outcome.success) := by
  induction rs with
  | nil => rfl
  | cons r rest ih =>
    have hr := h r (by simp)
    have hrest : ∀ x ∈ rest, nonTerminal x = true := fun x hx => h x (by simp [hx])
    cases r with
    | empty => simpa [processRecords, fragEvents] using ih hrest
    | malformed => simp [nonTerminal] at hr
    | obj resp dn =>
      cases dn with
      | false =>
        cases resp with
        | none => simp [processRecords, fragEvents, ih hrest]
        | some t => simp [processRecords, fragEvents, ih hrest]
      | true => simp [nonTerminal] at hr

/-- Processing a stream that starts with non-terminal records: the loop
emits their fragments and continues with the rest of the stream. -/
theorem processRecords_append_nonTerminal (pre rs : List Record)
    (h : ∀ r ∈ pre, nonTerminal r = true) :
    processRecords (pre ++ rs)
      = (fragEvents pre ++ (processRecords rs).1, (processRecords rs).2) := by
  induction pre with
  | nil => simp [fragEvents]
  | cons r pre ih =>
    have hr := h r (by simp)
    have hpre : ∀ x ∈ pre, nonTerminal x = true := fun x hx => h x (by simp [hx])
    cases r with
    | empty => simpa [processRecords, fragEvents] using ih hpre
    | malformed => simp [nonTerminal] at hr
    | obj resp dn =>
      cases dn with
      | false =>
        cases resp with
        | none => simp [processRecords, fragEvents, ih hpre]
        | some t => simp [processRecords, fragEvents, ih hpre]
      | true => simp [nonTerminal] at hr

theorem fragEvents_replicate_empty (n : Nat) :
    fragEvents (List.replicate n Record.empty) = [] := by
  induction n with
  | zero => rfl
  | succ n ih =>
    rw [List.replicate_succ]
    simp only [fragEvents, List.filterMap_cons]
    exact ih

/-- The invariant holds after every schedule. -/
theorem inv_exec (k : Nat) (targets : List (String × ConnectResult))
    (sched : List Act) : Inv k targets (exec k targets sched) := by
  unfold exec
  have h : ∀ σ, Inv k targets σ →
      Inv k targets (sched.foldl (stepFn targets) σ) := by
    induction sched with
    | nil => intro σ hσ; exact hσ
    | cons a sched ih =>
      intro σ hσ
      exact ih _ (inv_step k targets σ a hσ)
  exact h _ (inv_init k targets.length targets rfl)

/-! ## Claims -/

/-- C1 counterexample: two targets, the first failing at connect.
`asyncio.gather` (default `return_exceptions=False`) propagates the
first task's exception, so the run produces no per-task result list at
all — in particular no result for the second, healthy sibling, even
though that sibling on its own would have terminated successfully.
This refutes the claim that a TaskResult is returned for every Target
regardless of individual failure. -/
theorem C1_counterexample :
    runMany [ConnectResult.failure,
        ConnectResult.established [Record.obj none true]]
      = Except.error ()
    ∧ (stream_one (ConnectResult.established [Record.obj none true])).outcome
        = Outcome.success := by
  exact ⟨rfl, rfl⟩

/-- C1 amended: the orchestrator returns one result per Target only
when no task raises; as soon as any task's coroutine raises (connect
failure, malformed record, ...), the exception propagates out of
`asyncio.gather` and the run aborts with no per-task results. -/
theorem C1_amended_gather_aborts (inputs : List ConnectResult) :
    (runMany inputs = Except.error ()
      ↔ ∃ c ∈ inputs, (stream_one c).outcome = Outcome.exception)
    ∧ ((∀ c ∈ inputs, (stream_one c).outcome = Outcome.success) →
      runMany inputs = Except.ok (inputs.map stream_one)) := by
  induction inputs with
  | nil =>
    refine ⟨?_, ?_⟩
    · simp [runMany, gatherResults]
    · intro _; simp [runMany, gatherResults]
  | cons c rest ih =>
    obtain ⟨ih1, ih2⟩ := ih
    cases hc : (stream_one c).outcome with
    | exception =>
      refine ⟨?_, ?_⟩
      · constructor
        · intro _; exact ⟨c, by simp, hc⟩
        · intro _; simp [runMany, gatherResults, hc]
      · intro hall
        have := hall c (by simp)
        rw [hc] at this
        cases this
    | success =>
      have hR : runMany (c :: rest)
          = (match runMany rest with
            | Except.error e => Except.error e
            | Except.ok rs => Except.ok (stream_one c :: rs)) := by
        simp only [runMany, List.map_cons, hc]
        rfl
      refine ⟨?_, ?_⟩
      · cases hrm : runMany rest with
        | error e =>
          have hex : ∃ x ∈ rest, (stream_one x).outcome = Outcome.exception := by
            apply ih1.mp
            cases e
            exact hrm
          constructor
          · intro _
            obtain ⟨x, hx, hox⟩ := hex
            exact ⟨x, by simp [hx], hox⟩
          · intro _
            rw [hR, hrm]
        | ok rs =>
          constructor
          · intro h
            rw [hR, hrm] at h
            cases h
          · rintro ⟨x, hx, hox⟩
            simp only [List.mem_cons] at hx
            rcases hx with rfl | hx
            · rw [hox] at hc; cases hc
            · have : runMany rest = Except.error () := ih1.mpr ⟨x, hx, hox⟩
              rw [hrm] at this
              cases this
      · intro hall
        have hrest : runMany rest = Except.ok (rest.map stream_one) :=
          ih2 (fun x hx => hall x (by simp [hx]))
        rw [hR, hrest]
        rfl

/-- C1 amended, witnessed at a concrete input: a single healthy target
yields the full result list. -/
theorem C1_amended_witness :
    runMany [ConnectResult.established [Record.obj none true]]
      = Except.ok
          ([ConnectResult.established [Record.obj none true]].map stream_one) :=
  (C1_amended_gather_aborts _).2 (by decide)

/-- C2 counterexample: the stream delivers one fragment record and then
closes with no Done or Error marker.  The `async for` loop simply ends
and the coroutine returns normally — the task terminates successfully,
refuting "terminates with Failure(ConnectionClosedEarly), never with
Success". -/
theorem C2_counterexample :
    (stream_one (ConnectResult.established
        [Record.obj (some "Hello") false])).outcome = Outcome.success
    ∧ (stream_one (ConnectResult.established
        [Record.obj (some "Hello") false])).events
        = [Event.fragment "Hello"] := by
  exact ⟨rfl, rfl⟩

/-- C2 amended: when the connection closes after zero or more
non-terminal records (fragments and keep-alives) and before any Done or
malformed record, the task terminates normally, with no Done event and
no error surfaced: the early close is silently indistinguishable from
success (no ConnectionClosedEarly failure exists in the code). -/
theorem C2_amended_early_close_is_silent (rs : List Record)
    (h : rs.all nonTerminal = true) :
    (stream_one (ConnectResult.established rs)).outcome = Outcome.success
    ∧ Event.doneEv ∉ (stream_one (ConnectResult.established rs)).events := by
  have hp := processRecords_nonTerminal rs
    (fun r hr => List.all_eq_true.mp h r hr)
  refine ⟨by simp [stream_one, hp], ?_⟩
  simp only [stream_one, hp]
  intro hmem
  simp only [fragEvents, List.mem_filterMap] at hmem
  obtain ⟨r, hr, hmatch⟩ := hmem
  cases r with
  | empty => simp at hmatch
  | malformed => simp at hmatch
  | obj resp dn => cases resp <;> simp at hmatch

/-- C2 amended, witnessed on a concrete early-closing stream. -/
theorem C2_amended_witness :
    [Record.empty, Record.obj (some "hi") false].all nonTerminal = true
    ∧ ((stream_one (ConnectResult.established
          [Record.empty, Record.obj (some "hi") false])).outcome
        = Outcome.success
      ∧ Event.doneEv ∉ (stream_one (ConnectResult.established
          [Record.empty, Record.obj (some "hi") false])).events) :=
  ⟨by decide, C2_amended_early_close_is_silent _ (by decide)⟩

/-- C5 counterexample: a malformed record makes `json.loads` raise; the
loop has no try/except, so the exception escapes the task instead of
being captured as a Failure in a TaskResult.  This refutes "the task's
outcome is Failure, not an escaped exception". -/
theorem C5_counterexample :
    (stream_one (ConnectResult.established [Record.malformed])).outcome
      = Outcome.exception := by
  exact rfl

/-- C5 amended: a non-empty record that fails JSON decoding is terminal
for the task — the fragments emitted before it are kept, nothing after
it is read — but it terminates the task by an escaped exception, not by
a captured Error or TaskResult. -/
theorem C5_amended_malformed_escapes (pre rest : List Record)
    (h : pre.all nonTerminal = true) :
    processRecords (pre ++ Record.malformed :: rest)
      = (fragEvents pre, Outcome.exception) := by
  rw [processRecords_append_nonTerminal pre _
    (fun r hr => List.all_eq_true.mp h r hr)]
  simp [processRecords]

/-- C5 amended, witnessed on a concrete stream with a fragment before
the malformed record and records after it. -/
theorem C5_amended_witness :
    [Record.obj (some "x") false].all nonTerminal = true
    ∧ processRecords ([Record.obj (some "x") false]
          ++ Record.malformed :: [Record.obj none true])
        = (fragEvents [Record.obj (some "x") false], Outcome.exception) :=
  ⟨by decide, C5_amended_malformed_escapes _ _ (by decide)⟩

/-- C8: a record stream of `n` empty keep-alive records followed by one
Done marker yields zero Fragment events and exactly one Done event —
every empty record is silently absorbed. -/
theorem C8_keepalives_then_done (n : Nat) :
    processRecords (List.replicate n Record.empty
        ++ [Record.obj none true])
      = ([Event.doneEv], Outcome.success) := by
  rw [processRecords_append_nonTerminal]
  · rw [fragEvents_replicate_empty]
    rfl
  · intro r hr
    rw [List.eq_of_mem_replicate hr]
    rfl

/-- C9: when a successfully decoded record carries both a text
increment and the completion marker, the Fragment event is emitted
first and then the Done event; the Done is terminal — the records after
it (`rest`) are never read, so the result does not depend on them. -/
theorem C9_fragment_then_done_terminal (pre rest : List Record)
    (t : String) (h : pre.all nonTerminal = true) :
    processRecords (pre ++ Record.obj (some t) true :: rest)
      = (fragEvents pre ++ [Event.fragment t, Event.doneEv],
         Outcome.success) := by
  rw [processRecords_append_nonTerminal pre _
    (fun r hr => List.all_eq_true.mp h r hr)]
  simp [processRecords]

/-- C9 witnessed on a concrete stream whose suffix after the Done
record would crash the task if it were read. -/
theorem C9_witness :
    [Record.obj (some "a") false].all nonTerminal = true
    ∧ processRecords ([Record.obj (some "a") false]
          ++ Record.obj (some "b") true :: [Record.malformed])
        = (fragEvents [Record.obj (some "a") false]
            ++ [Event.fragment "b", Event.doneEv], Outcome.success) :=
  ⟨by decide, C9_fragment_then_done_terminal _ _ _ (by decide)⟩

/-- C3: Output Sink mutual exclusion.  asyncio schedules cooperatively
and each `print` call is a single synchronous segment, so each sink
write is one atomic step under every interleaving — with or without the
optional lock, which only removes some interleavings; the theorem
quantifies over all of them.  The sink content is the concatenation of
the trace's chunks; the theorem shows every chunk belongs to a real
task and that the chunks of each task are exactly its header followed
by its fragment texts in arrival order, so no byte of one task's
fragment ever appears inside another task's fragment or header. -/
theorem C3_sink_writes_never_interleave (k : Nat)
    (targets : List (String × ConnectResult)) (sched : List Act)
    (i : Nat) (hi : i < targets.length) :
    writesOf i (exec k targets sched).trace
      = expectedWrites (modelOf targets i)
          ((exec k targets sched).phases.getD i Phase.pending)
    ∧ (exec k targets sched).trace.all
        (fun p => decide (p.1 < targets.length)) = true := by
  have inv := inv_exec k targets sched
  have hi' : i < (exec k targets sched).phases.length := by
    rw [inv.len]; exact hi
  constructor
  · rw [List.getD_eq_getElem _ _ hi']
    exact inv.writes i hi'
  · apply List.all_eq_true.mpr
    intro p hp
    simpa using inv.traceDom p hp

/-- C3 witnessed on a concrete two-task interleaved schedule. -/
theorem C3_witness :
    (0 < ([("m1", ConnectResult.established
          [Record.obj (some "A") false, Record.obj none true]),
        ("m2", ConnectResult.established
          [Record.obj (some "B") true])] :
        List (String × ConnectResult)).length)
    ∧ (writesOf 0 (exec 2
        [("m1", ConnectResult.established
          [Record.obj (some "A") false, Record.obj none true]),
         ("m2", ConnectResult.established
          [Record.obj (some "B") true])]
        [Act.start 0, Act.start 1, Act.connect 0, Act.connect 1,
         Act.header 0, Act.header 1, Act.read 0, Act.read 1,
         Act.read 0]).trace
      = expectedWrites (modelOf
          [("m1", ConnectResult.established
            [Record.obj (some "A") false, Record.obj none true]),
           ("m2", ConnectResult.established
            [Record.obj (some "B") true])] 0)
          ((exec 2
            [("m1", ConnectResult.established
              [Record.obj (some "A") false, Record.obj none true]),
             ("m2", ConnectResult.established
              [Record.obj (some "B") true])]
            [Act.start 0, Act.start 1, Act.connect 0, Act.connect 1,
             Act.header 0, Act.header 1, Act.read 0, Act.read 1,
             Act.read 0]).phases.getD 0 Phase.pending)
      ∧ (exec 2
          [("m1", ConnectResult.established
            [Record.obj (some "A") false, Record.obj none true]),
           ("m2", ConnectResult.established
            [Record.obj (some "B") true])]
          [Act.start 0, Act.start 1, Act.connect 0, Act.connect 1,
           Act.header 0, Act.header 1, Act.read 0, Act.read 1,
           Act.read 0]).trace.all
          (fun p => decide (p.1 <
            ([("m1", ConnectResult.established
              [Record.obj (some "A") false, Record.obj none true]),
             ("m2", ConnectResult.established
              [Record.obj (some "B") true])] :
             List (String × ConnectResult)).length)) = true) :=
  ⟨by decide, C3_sink_writes_never_interleave 2 _ _ 0 (by decide)⟩

/-- C4: at every moment of every run, the number of tasks holding an
open stream is at most `min k m` for semaphore size `k` and target
count `m`: a task opens its stream only while holding one of the `k`
permits, and there are only `m` tasks — so raising `m` beyond `k`
cannot raise the number of simultaneously open streams. -/
theorem C4_open_streams_bounded (k : Nat)
    (targets : List (String × ConnectResult)) (sched : List Act) :
    openCount (exec k targets sched) ≤ min k targets.length := by
  have inv := inv_exec k targets sched
  have h1 : openCount (exec k targets sched)
      ≤ heldCount (exec k targets sched) := by
    unfold openCount heldCount
    apply List.countP_mono_left
    intro ph _ hopen
    cases ph with
    | pending => simp [isOpen] at hopen
    | connecting => simp [isOpen] at hopen
    | connected rs => simp [isHolding]
    | streaming pre rs => simp [isHolding]
    | terminated a b => simp [isOpen] at hopen
  have h2 : heldCount (exec k targets sched) ≤ k := by
    have := inv.semInv
    omega
  have h3 : openCount (exec k targets sched) ≤ targets.length := by
    calc openCount (exec k targets sched)
        ≤ (exec k targets sched).phases.length := List.countP_le_length _
      _ = targets.length := inv.len
  exact le_min (le_trans h1 h2) h3

/-- C7: once every task of a run has terminated — by success, failure
or cancellation — each task has exactly as many semaphore releases as
acquires (at most one of each, so every acquired Permit was released
exactly once), no task holds a permit, and the semaphore counter is
back at `k`: zero Permits remain held. -/
theorem C7_permits_released_once (k : Nat)
    (targets : List (String × ConnectResult)) (sched : List Act)
    (i : Nat)
    (hterm : (exec k targets sched).phases.all isTerminated = true)
    (hi : i < targets.length) :
    (exec k targets sched).relLog.count i
        = (exec k targets sched).acqLog.count i
    ∧ (exec k targets sched).acqLog.count i ≤ 1
    ∧ heldCount (exec k targets sched) = 0
    ∧ (exec k targets sched).sem = k := by
  have inv := inv_exec k targets sched
  have hi' : i < (exec k targets sched).phases.length := by
    rw [inv.len]; exact hi
  have hheld : heldCount (exec k targets sched) = 0 := by
    unfold heldCount
    apply List.countP_eq_zero.mpr
    intro ph hph
    have hT := List.all_eq_true.mp hterm ph hph
    cases ph with
    | pending => simp [isTerminated] at hT
    | connecting => simp [isTerminated] at hT
    | connected rs => simp [isTerminated] at hT
    | streaming pre rs => simp [isTerminated] at hT
    | terminated a b => simp [isHolding]
  have hsem : (exec k targets sched).sem = k := by
    have := inv.semInv
    omega
  have hlog := inv.logs i
  have hphase : (exec k targets sched).phases.getD i Phase.pending
      = (exec k targets sched).phases[i] :=
    List.getD_eq_getElem _ _ hi'
  have hT := List.all_eq_true.mp hterm _ (List.getElem_mem hi')
  cases hph : (exec k targets sched).phases[i] with
  | pending => rw [hph] at hT; simp [isTerminated] at hT
  | connecting => rw [hph] at hT; simp [isTerminated] at hT
  | connected rs => rw [hph] at hT; simp [isTerminated] at hT
  | streaming pre rs => rw [hph] at hT; simp [isTerminated] at hT
  | terminated a b =>
    rw [hphase, hph] at hlog
    obtain ⟨ha, hb⟩ := hlog
    exact ⟨ha.symm, hb, hheld, hsem⟩

/-- C7 witnessed on a concrete completed run (one task cancelled
mid-stream, one run to completion). -/
theorem C7_witness :
    ((exec 1
        [("m1", ConnectResult.established
          [Record.obj (some "A") false, Record.obj none true]),
         ("m2", ConnectResult.established
          [Record.obj (some "B") true])]
        [Act.start 0, Act.connect 0, Act.header 0, Act.read 0,
         Act.cancel 0, Act.start 1, Act.connect 1, Act.header 1,
         Act.read 1]).phases.all isTerminated = true)
    ∧ (0 < ([("m1", ConnectResult.established
          [Record.obj (some "A") false, Record.obj none true]),
        ("m2", ConnectResult.established
          [Record.obj (some "B") true])] :
        List (String × ConnectResult)).length)
    ∧ ((exec 1
        [("m1", ConnectResult.established
          [Record.obj (some "A") false, Record.obj none true]),
         ("m2", ConnectResult.established
          [Record.obj (some "B") true])]
        [Act.start 0, Act.connect 0, Act.header 0, Act.read 0,
         Act.cancel 0, Act.start 1, Act.connect 1, Act.header 1,
         Act.read 1]).relLog.count 0
        = (exec 1
        [("m1", ConnectResult.established
          [Record.obj (some "A") false, Record.obj none true]),
         ("m2", ConnectResult.established
          [Record.obj (some "B") true])]
        [Act.start 0, Act.connect 0, Act.header 0, Act.read 0,
         Act.cancel 0, Act.start 1, Act.connect 1, Act.header 1,
         Act.read 1]).acqLog.count 0
      ∧ (exec 1
        [("m1", ConnectResult.established
          [Record.obj (some "A") false, Record.obj none true]),
         ("m2", ConnectResult.established
          [Record.obj (some "B") true])]
        [Act.start 0, Act.connect 0, Act.header 0, Act.read 0,
         Act.cancel 0, Act.start 1, Act.connect 1, Act.header 1,
         Act.read 1]).acqLog.count 0 ≤ 1
      ∧ heldCount (exec 1
        [("m1", ConnectResult.established
          [Record.obj (some "A") false, Record.obj none true]),
         ("m2", ConnectResult.established
          [Record.obj (some "B") true])]
        [Act.start 0, Act.connect 0, Act.header 0, Act.read 0,
         Act.cancel 0, Act.start 1, Act.connect 1, Act.header 1,
         Act.read 1]) = 0
      ∧ (exec 1
        [("m1", ConnectResult.established
          [Record.obj (some "A") false, Record.obj none true]),
         ("m2", ConnectResult.established
          [Record.obj (some "B") true])]
        [Act.start 0, Act.connect 0, Act.header 0, Act.read 0,
         Act.cancel 0, Act.start 1, Act.connect 1, Act.header 1,
         Act.read 1]).sem = 1) :=
  ⟨by decide, by decide,
    C7_permits_released_once 1 _ _ 0 (by decide) (by decide)⟩

/-- C10: a task whose connection attempt fails performs no Output Sink
write at all — its header `print` sits inside the
`async with client.stream(...)` block, so it is sequenced strictly
after successful establishment, and without establishment the task can
never reach the header- or fragment-writing steps in any schedule. -/
theorem C10_connect_failure_writes_nothing (k : Nat)
    (targets : List (String × ConnectResult)) (sched : List Act)
    (i : Nat) (hi : i < targets.length)
    (hfail : inputOf targets i = ConnectResult.failure) :
    writesOf i (exec k targets sched).trace = [] := by
  have inv := inv_exec k targets sched
  have hi' : i < (exec k targets sched).phases.length := by
    rw [inv.len]; exact hi
  have hw := inv.writes i hi'
  cases hph : (exec k targets sched).phases[i] with
  | pending => rw [hph] at hw; simpa [expectedWrites] using hw
  | connecting => rw [hph] at hw; simpa [expectedWrites] using hw
  | connected rs =>
    obtain ⟨rs0, hrs⟩ := inv.conn i hi' (by rw [hph]; rfl)
    rw [hfail] at hrs
    cases hrs
  | streaming pre rs =>
    obtain ⟨rs0, hrs⟩ := inv.conn i hi' (by rw [hph]; rfl)
    rw [hfail] at hrs
    cases hrs
  | terminated info ok =>
    cases info with
    | none => rw [hph] at hw; simpa [expectedWrites] using hw
    | some pr =>
      obtain ⟨rs0, hrs⟩ := inv.conn i hi'
        (by rw [hph]; simp [everConnected])
      rw [hfail] at hrs
      cases hrs

/-- C10 witnessed on a run whose single target fails to connect. -/
theorem C10_witness :
    (0 < ([("m0", ConnectResult.failure)] :
        List (String × ConnectResult)).length)
    ∧ inputOf [("m0", ConnectResult.failure)] 0 = ConnectResult.failure
    ∧ writesOf 0 (exec 1 [("m0", ConnectResult.failure)]
        [Act.start 0, Act.connect 0]).trace = [] :=
  ⟨by decide, by decide,
    C10_connect_failure_writes_nothing 1 _ _ 0 (by decide) (by decide)⟩

/-- C6: the Incremental Line Decoder (modelled from the spec, since the
scripts delegate line splitting to `httpx.Response.aiter_lines`, which
is outside this repository) is chunk-boundary-invariant: any two ways
of splitting the same byte stream into chunks yield the identical
sequence of Records. -/
theorem C6_decoder_chunk_invariance (cs1 cs2 : List (List Char))
    (h : cs1.flatten = cs2.flatten) :
    decodeChunks cs1 = decodeChunks cs2 := by
  rw [decodeChunks_flatten, decodeChunks_flatten, h]

/-- C6 witnessed on two different chunkings of the same bytes. -/
theorem C6_witness :
    ([['a', 'b', '\n', 'c'], ['d', '\n', 'e']] :
        List (List Char)).flatten
      = ([['a'], ['b'], ['\n', 'c', 'd'], ['\n'], ['e']] :
        List (List Char)).flatten
    ∧ decodeChunks [['a', 'b', '\n', 'c'], ['d', '\n', 'e']]
      = decodeChunks [['a'], ['b'], ['\n', 'c', 'd'], ['\n'], ['e']] :=
  ⟨by decide, C6_decoder_chunk_invariance _ _ (by decide)⟩

end Llmeng
